import Mathlib

/-! # Verification of the TuneReader conversion core (src/main.py)

The score-transformation stages of the pipeline are embedded as pure
functions over a simplified representation of music21 streams.  Pitches are
MIDI numbers (`Int`), offsets and durations are exact rationals standing for
music21 quarter-length values (the source's floats).  External processes
(Audiveris, fluidsynth, ffmpeg) are modelled by their observable exit
statuses and by the traces of invocations the orchestration code performs.
-/

namespace TuneReader

/-- One element of a music21 stream as used by src/main.py: a note, a chord,
a tempo (MetronomeMark) marking, or a repeat marking (Repeat/RepeatBracket,
collapsed into one constructor since main.py removes both alike). -/
inductive ScoreElem where
  | noteE (pitch : Int) (offset dur : ℚ)
  | chordE (pitches : List Int) (offset dur : ℚ)
  | metronomeE (bpm : Nat) (offset : ℚ)
  | repeatE (offset : ℚ)
  deriving DecidableEq, Repr

/-- A music21 Score: elements inserted at score level (such as the uniform
tempo marking inserted by convert_to_midi) together with its parts. -/
structure Score where
  topElems : List ScoreElem
  parts : List (List ScoreElem)
  deriving DecidableEq, Repr

def ScoreElem.isNote : ScoreElem → Bool
  | .noteE _ _ _ => true
  | _ => false

def ScoreElem.isChord : ScoreElem → Bool
  | .chordE _ _ _ => true
  | _ => false

def ScoreElem.isMetronomeMark : ScoreElem → Bool
  | .metronomeE _ _ => true
  | _ => false

def ScoreElem.isRepeatMark : ScoreElem → Bool
  | .repeatE _ => true
  | _ => false

/-- music21's `.notes` selects exactly the note and chord elements. -/
def ScoreElem.isNoteOrChord (e : ScoreElem) : Bool := e.isNote || e.isChord

/-- The offset (quarter-length position) carried by a stream element. -/
def elemOffset : ScoreElem → ℚ
  | .noteE _ o _ => o
  | .chordE _ o _ => o
  | .metronomeE _ o => o
  | .repeatE o => o

/-- `score.flatten().notes`: all note/chord elements of the score.  music21
additionally sorts the flat stream by offset; here the list order simply is
the processing order, which is what the overwrite claims quantify over. -/
def Score.flatNotes (s : Score) : List ScoreElem :=
  (s.topElems ++ s.parts.flatten).filter ScoreElem.isNoteOrChord

/-- The bpm values of all MetronomeMark elements anywhere in the score. -/
def Score.tempoMarks (s : Score) : List Nat :=
  (s.topElems ++ s.parts.flatten).filterMap fun e =>
    match e with
    | .metronomeE bpm _ => some bpm
    | _ => none

/-- The source's `round(x, 3)` on quarter-length offsets.  On an exact
rational q = num/den (den > 0) this is floor(1000q + 1/2) / 1000, computed
below as ((2000 num + den) div (2 den)) / 1000 with Euclidean (floor)
integer division.  (Python rounds ties to even on binary floats; the claims
never hinge on tie direction.) -/
def round3 (q : ℚ) : ℚ := Rat.divInt ((2000 * q.num + (q.den : ℤ)) / (2 * (q.den : ℤ))) 1000

/-! ## filter_score_by_pitch (src/main.py lines 164-197) -/

/-- The inclusive range test of filter_score_by_pitch: a None bound is
unbounded. -/
def pitchInRange (minPitch maxPitch : Option Int) (p : Int) : Bool :=
  (match minPitch with
    | none => true
    | some m => decide (m ≤ p))
  && (match maxPitch with
    | none => true
    | some mx => decide (p ≤ mx))

/-- The loop body of filter_score_by_pitch: a note is kept iff its pitch is
in range; a chord keeps its in-range pitches, is dropped when none survive,
and is otherwise rebuilt with the original offset and duration. -/
def filterKeep (minPitch maxPitch : Option Int) : ScoreElem → Option ScoreElem
  | .noteE p o d => if pitchInRange minPitch maxPitch p then some (.noteE p o d) else none
  | .chordE ps o d =>
      let kept := ps.filter fun p => pitchInRange minPitch maxPitch p
      if kept.isEmpty then none else some (.chordE kept o d)
  | _ => none

/-- filter_score_by_pitch: iterates over score.flatten().notes and inserts
the kept elements, at their own offsets, into a single new part of a new
Score. -/
def filter_score_by_pitch (s : Score) (minPitch maxPitch : Option Int) : Score :=
  ⟨[], [s.flatNotes.filterMap (filterKeep minPitch maxPitch)]⟩

/-! ## make_score_monophonic (src/main.py lines 113-162) -/

/-- A note held in make_score_monophonic's note_dict: the `selected` object
with its pitch, (unrounded) offset and duration. -/
structure MNote where
  pitch : Int
  offset : ℚ
  dur : ℚ
  deriving DecidableEq, Repr

/-- The chord branch of make_score_monophonic: max(n.pitches) for 'top',
min for 'bottom', n.pitches[0] for 'first', n.pitches[-1] for 'last', and a
ValueError for any other strategy.  max/min/indexing on an empty pitch list
raise as well (modelled as errors). -/
def chordStrategyPitch (strategy : Option String) (pitches : List Int) : Except String Int :=
  if strategy = some ("top") then
    match pitches.max? with
    | some p => .ok p
    | none => .error ("max of empty pitches")
  else if strategy = some ("bottom") then
    match pitches.min? with
    | some p => .ok p
    | none => .error ("min of empty pitches")
  else if strategy = some ("first") then
    match pitches.head? with
    | some p => .ok p
    | none => .error ("index out of range")
  else if strategy = some ("last") then
    match pitches.getLast? with
    | some p => .ok p
    | none => .error ("index out of range")
  else
    .error ("Unknown strategy")

/-- Python dict assignment note_dict[k] = v: replace the entry at an
existing key in place, else append the new binding. -/
def dictInsert : List (ℚ × MNote) → ℚ → MNote → List (ℚ × MNote)
  | [], k, v => [(k, v)]
  | kv :: d, k, v => if kv.1 = k then (k, v) :: d else kv :: dictInsert d k v

/-- Python dict lookup note_dict[k] (None when absent). -/
def dictLookup : List (ℚ × MNote) → ℚ → Option MNote
  | [], _ => none
  | kv :: d, k => if kv.1 = k then some kv.2 else dictLookup d k

/-- One iteration of make_score_monophonic's loop over the flat notes:
the offset key is rounded to 3 decimals, the selected note keeps the
original offset and duration, and the dict entry is overwritten
unconditionally when the key is already present. -/
def noteDictStep (strategy : Option String) (d : List (ℚ × MNote)) :
    ScoreElem → Except String (List (ℚ × MNote))
  | .noteE p o dur => .ok (dictInsert d (round3 o) ⟨p, o, dur⟩)
  | .chordE ps o dur =>
      (chordStrategyPitch strategy ps).map fun p => dictInsert d (round3 o) ⟨p, o, dur⟩
  | _ => .ok d

/-- The note_dict built by make_score_monophonic's loop (errors propagate
the ValueError raised inside the loop). -/
def buildNoteDict (strategy : Option String) :
    List ScoreElem → List (ℚ × MNote) → Except String (List (ℚ × MNote))
  | [], d => .ok d
  | e :: es, d =>
      match noteDictStep strategy d e with
      | .ok d2 => buildNoteDict strategy es d2
      | .error msg => .error msg

/-- `for offset in sorted(note_dict)`: the dict entries in ascending key
order (keys are distinct, so any stable sort gives the same list). -/
def sortedDict (d : List (ℚ × MNote)) : List (ℚ × MNote) :=
  List.insertionSort (fun a b => a.1 ≤ b.1) d

/-- mono_part.insert(mono_note.offset, mono_note): each dict value becomes a
note at its own (unrounded) offset. -/
def dictEntryNote (kv : ℚ × MNote) : ScoreElem := .noteE kv.2.pitch kv.2.offset kv.2.dur

/-- make_score_monophonic: build the note dict over score.flatten().notes,
then emit one part holding the dict values in ascending key order, inside a
fresh Score. -/
def make_score_monophonic (score : Score) (strategy : Option String) : Except String Score :=
  match buildNoteDict strategy score.flatNotes [] with
  | .error msg => .error msg
  | .ok noteDict => .ok ⟨[], [(sortedDict noteDict).map dictEntryNote]⟩

/-! ## convert_to_midi (src/main.py lines 366-437) -/

/-- The run configuration read by convert_to_midi (module-level globals
transpose_interval, left_hand, right_hand, strategy). -/
structure Config where
  transposeInterval : Int
  leftHand : Bool
  rightHand : Bool
  strategy : Option String
  deriving DecidableEq, Repr

/-- The transforms convert_to_midi applies to the score, in order; the trace
of performed steps makes the failure point of the mutual-exclusion check
observable. -/
inductive CleanStep where
  | transposeStep
  | removeRepeatsStep
  | tempoNormStep
  | filterLeftStep
  | filterRightStep
  | monoStep
  | quantizeStep
  deriving DecidableEq, Repr

def transposeElem (k : Int) : ScoreElem → ScoreElem
  | .noteE p o d => .noteE (p + k) o d
  | .chordE ps o d => .chordE (ps.map fun p => p + k) o d
  | e => e

/-- score.transpose(k): shift every pitch by k semitones. -/
def Score.transposeScore (s : Score) (k : Int) : Score :=
  ⟨s.topElems.map (transposeElem k), s.parts.map fun pt => pt.map (transposeElem k)⟩

/-- Removal of every Repeat/RepeatBracket marking anywhere in the score. -/
def Score.removeRepeats (s : Score) : Score :=
  ⟨s.topElems.filter (fun e => !e.isRepeatMark),
    s.parts.map fun pt => pt.filter (fun e => !e.isRepeatMark)⟩

/-- Removal of every MetronomeMark anywhere in the score. -/
def Score.removeTempoMarks (s : Score) : Score :=
  ⟨s.topElems.filter (fun e => !e.isMetronomeMark),
    s.parts.map fun pt => pt.filter (fun e => !e.isMetronomeMark)⟩

/-- score.insert(0, tempo.MetronomeMark(number=160)). -/
def Score.insertTempo160 (s : Score) : Score :=
  ⟨ScoreElem.metronomeE 160 0 :: s.topElems, s.parts⟩

/-- score.quantize(inPlace=True), abstracted: quantization snaps offsets and
durations (via the engine's grid, here arbitrary maps qo and qd) and neither
adds nor removes elements. -/
def quantizeElem (qo qd : ℚ → ℚ) : ScoreElem → ScoreElem
  | .noteE p o d => .noteE p (qo o) (qd d)
  | .chordE ps o d => .chordE ps (qo o) (qd d)
  | .metronomeE bpm o => .metronomeE bpm (qo o)
  | .repeatE o => .repeatE (qo o)

def Score.quantizeScore (s : Score) (qo qd : ℚ → ℚ) : Score :=
  ⟨s.topElems.map (quantizeElem qo qd), s.parts.map fun pt => pt.map (quantizeElem qo qd)⟩

/-- `if transpose_interval != 0: score = score.transpose(...)`. -/
def transposeStage (cfg : Config) (s : Score) : Score × List CleanStep :=
  if cfg.transposeInterval ≠ 0 then (s.transposeScore cfg.transposeInterval, [CleanStep.transposeStep])
  else (s, [])

/-- The optional hand filter: left hand keeps pitches ≤ 60 (max_pitch=60),
right hand keeps pitches ≥ 61 (min_pitch=61). -/
def filterStage (cfg : Config) (s : Score) (tr : List CleanStep) : Score × List CleanStep :=
  if cfg.leftHand then (filter_score_by_pitch s none (some 60), tr ++ [CleanStep.filterLeftStep])
  else if cfg.rightHand then (filter_score_by_pitch s (some 61) none, tr ++ [CleanStep.filterRightStep])
  else (s, tr)

/-- `if strategy is not None: score = make_score_monophonic(score, strategy)`. -/
def monoStage (cfg : Config) (s : Score) (tr : List CleanStep) :
    Except String Score × List CleanStep :=
  match cfg.strategy with
  | none => (Except.ok s, tr)
  | some strat => (make_score_monophonic s (some strat), tr ++ [CleanStep.monoStep])

/-- The score-level pipeline of convert_to_midi, from the parsed score to
the score handed to score.write("midi", ...): optional transpose, repeat
removal, tempo normalization (remove all marks, insert one 160 BPM mark),
the left/right-hand mutual-exclusion check (a raised ValueError is caught by
the stage's except-handler, so the stage yields no score), the optional hand
filter, the optional monophonic reduction, and quantization.  The second
component is the trace of transforms performed before returning. -/
def convert_to_midi (cfg : Config) (s0 : Score) (qo qd : ℚ → ℚ) :
    Except String Score × List CleanStep :=
  let t := transposeStage cfg s0
  let s3 := ((t.1.removeRepeats).removeTempoMarks).insertTempo160
  let tr3 := t.2 ++ [CleanStep.removeRepeatsStep, CleanStep.tempoNormStep]
  if cfg.leftHand && cfg.rightHand then
    (Except.error ("Cannot enable both left_hand and right_hand simultaneously."), tr3)
  else
    let f := filterStage cfg s3 tr3
    let m := monoStage cfg f.1 f.2
    match m.1 with
    | Except.error msg => (Except.error msg, m.2)
    | Except.ok s5 => (Except.ok (s5.quantizeScore qo qd), m.2 ++ [CleanStep.quantizeStep])

/-! ## convert_to_images (src/main.py lines 250-281) -/

def digitChar (d : Nat) : Char := Char.ofNat (48 + d)

/-- Decimal digit characters of n (fuel-structured so that it computes in
the kernel; the fuel n+1 always suffices). -/
def decDigitsAux : Nat → Nat → List Char
  | 0, _ => []
  | fuel+1, n => if n < 10 then [digitChar n] else decDigitsAux fuel (n / 10) ++ [digitChar (n % 10)]

def decDigits (n : Nat) : List Char := decDigitsAux (n + 1) n

/-- Python's format spec 03: left-pad the decimal digits with '0' to a
minimum width of 3. -/
def padLeft3 (l : List Char) : List Char := List.replicate (3 - l.length) '0' ++ l

/-- The page image name f"page_{i:03}.png". -/
def pageName (i : Nat) : String := "page_" ++ String.mk (padLeft3 (decDigits i)) ++ (".png")

/-- The input document: a PDF with some number of pages, or a single raster
image with an arbitrary original file name. -/
inductive InputDoc where
  | pdfDoc (numPages : Nat)
  | imageDoc (name : String)

/-- convert_to_images, reduced to the names it produces: a PDF page i
(0-based) becomes page_{i+1:03}.png; any single image is copied to
page_001.png regardless of its original name. -/
def convert_to_images : InputDoc → List String
  | .pdfDoc n => (List.range n).map fun i => pageName (i + 1)
  | .imageDoc _ => [("page_001.png")]

/-! ## run_audiveris (src/main.py lines 284-335) -/

/-- One Audiveris invocation: the log file its output is captured to, the
image arguments passed, and whether the invocation exited non-zero (the
raised CalledProcessError is caught where the source catches it). -/
structure AudAttempt where
  logFile : String
  imagesArg : List String
  failed : Bool
  deriving DecidableEq, Repr

/-- run_audiveris, as the trace of engine invocations it performs.  Images
are identified by their stems (base names); exitOk gives the engine's
success for a given argument list.  The batch attempt logs to
audiveris_batch.log; on batch failure every image is retried individually,
each logging to {stem}_audiveris.log, and a per-image failure is caught and
logged, never interrupting the loop or escaping the function. -/
def run_audiveris (stems : List String) (exitOk : List String → Bool) : List AudAttempt :=
  if exitOk stems then
    [⟨"audiveris_batch.log", stems, false⟩]
  else
    ⟨"audiveris_batch.log", stems, true⟩ ::
      stems.map fun st => ⟨st ++ ("_audiveris.log"), [st], !exitOk [st]⟩

/-! ## convert_midi_to_mp3 (src/main.py lines 440-476) -/

/-- The environment convert_midi_to_mp3 runs in: whether the MIDI path
exists (a None path behaves the same), and the exit codes of the two
external tools. -/
structure RenderEnv where
  midiExists : Bool
  fluidsynthExit : Nat
  ffmpegExit : Nat
  deriving DecidableEq, Repr

inductive RenderAction where
  | logNoMidi
  | runFluidsynth
  | runFfmpeg
  | deleteWav
  | logConvError
  | playMp3
  deriving DecidableEq, Repr

/-- convert_midi_to_mp3 as the sequence of observable actions it performs:
missing MIDI is logged and nothing else happens; fluidsynth and ffmpeg run
with check=True inside one try-block whose handler logs an error, so the
wav deletion (unlink with missing_ok=True) and playback run exactly when
both tools exited zero. -/
def convert_midi_to_mp3 (env : RenderEnv) : List RenderAction :=
  if !env.midiExists then [RenderAction.logNoMidi]
  else if env.fluidsynthExit ≠ 0 then [RenderAction.runFluidsynth, RenderAction.logConvError]
  else if env.ffmpegExit ≠ 0 then
    [RenderAction.runFluidsynth, RenderAction.runFfmpeg, RenderAction.logConvError]
  else
    [RenderAction.runFluidsynth, RenderAction.runFfmpeg, RenderAction.deleteWav,
      RenderAction.playMp3]

/-! ## Lemmas about filter_score_by_pitch -/

lemma filterKeep_isNoteOrChord {a b : Option Int} {e e' : ScoreElem}
    (h : filterKeep a b e = some e') : e'.isNoteOrChord = true := by
  cases e with
  | noteE p o d =>
      by_cases hp : pitchInRange a b p = true
      · simp [filterKeep, hp] at h
        simp [← h, ScoreElem.isNoteOrChord, ScoreElem.isNote]
      · simp [filterKeep, hp] at h
  | chordE ps o d =>
      simp only [filterKeep] at h
      split at h
      · exact absurd h (by simp)
      · simp at h
        simp [← h, ScoreElem.isNoteOrChord, ScoreElem.isChord]
  | metronomeE bpm o => simp [filterKeep] at h
  | repeatE o => simp [filterKeep] at h

lemma filter_flatNotes (s : Score) (a b : Option Int) :
    (filter_score_by_pitch s a b).flatNotes = s.flatNotes.filterMap (filterKeep a b) := by
  show ((([] : List ScoreElem) ++
      [s.flatNotes.filterMap (filterKeep a b)].flatten).filter ScoreElem.isNoteOrChord) = _
  simp only [List.nil_append, List.flatten_cons, List.flatten_nil, List.append_nil]
  refine List.filter_eq_self.mpr ?_
  intro e he
  obtain ⟨e0, _, h0⟩ := List.mem_filterMap.mp he
  exact filterKeep_isNoteOrChord h0

lemma mem_filter_note (s : Score) (a b : Option Int) (p : Int) (o d : ℚ) :
    ScoreElem.noteE p o d ∈ (filter_score_by_pitch s a b).flatNotes ↔
      ScoreElem.noteE p o d ∈ s.flatNotes ∧ pitchInRange a b p = true := by
  rw [filter_flatNotes, List.mem_filterMap]
  constructor
  · rintro ⟨e, he, hk⟩
    cases e with
    | noteE p' o' d' =>
        by_cases hp : pitchInRange a b p' = true
        · simp only [filterKeep, hp, if_true, Option.some.injEq] at hk
          obtain ⟨rfl, rfl, rfl⟩ := ScoreElem.noteE.inj hk
          exact ⟨he, hp⟩
        · simp [filterKeep, hp] at hk
    | chordE ps o' d' =>
        simp only [filterKeep] at hk
        split at hk
        · exact absurd hk (by simp)
        · exact absurd (Option.some.inj hk) (by simp)
    | metronomeE bpm o' => simp [filterKeep] at hk
    | repeatE o' => simp [filterKeep] at hk
  · rintro ⟨he, hp⟩
    exact ⟨ScoreElem.noteE p o d, he, by simp [filterKeep, hp]⟩

lemma mem_filter_chord (s : Score) (a b : Option Int) (qs : List Int) (o d : ℚ) :
    ScoreElem.chordE qs o d ∈ (filter_score_by_pitch s a b).flatNotes ↔
      ∃ ps, ScoreElem.chordE ps o d ∈ s.flatNotes ∧
        qs = ps.filter (fun p => pitchInRange a b p) ∧ qs ≠ [] := by
  rw [filter_flatNotes, List.mem_filterMap]
  constructor
  · rintro ⟨e, he, hk⟩
    cases e with
    | noteE p' o' d' =>
        by_cases hp : pitchInRange a b p' = true
        · simp only [filterKeep, hp, if_true, Option.some.injEq] at hk
          exact absurd hk (by simp)
        · simp [filterKeep, hp] at hk
    | chordE ps o' d' =>
        simp only [filterKeep] at hk
        split at hk
        · exact absurd hk (by simp)
        · rename_i hne
          obtain ⟨rfl, rfl, rfl⟩ := ScoreElem.chordE.inj (Option.some.inj hk)
          refine ⟨ps, he, rfl, ?_⟩
          intro hq
          rw [hq] at hne
          simp at hne
    | metronomeE bpm o' => simp [filterKeep] at hk
    | repeatE o' => simp [filterKeep] at hk
  · rintro ⟨ps, he, rfl, hne⟩
    refine ⟨ScoreElem.chordE ps o d, he, ?_⟩
    simp only [filterKeep]
    split
    · rename_i hemp
      rw [List.isEmpty_iff] at hemp
      exact absurd hemp hne
    · rfl

/-! ## Lemmas about make_score_monophonic -/

lemma flatNotes_single (l : List ScoreElem) :
    Score.flatNotes ⟨[], [l]⟩ = l.filter ScoreElem.isNoteOrChord := by
  simp [Score.flatNotes]

lemma mono_single_chord (strategy : Option String) (ps : List Int) (o d : ℚ) (p : Int)
    (h : chordStrategyPitch strategy ps = Except.ok p) :
    make_score_monophonic ⟨[], [[ScoreElem.chordE ps o d]]⟩ strategy =
      Except.ok ⟨[], [[ScoreElem.noteE p o d]]⟩ := by
  have hflat : Score.flatNotes ⟨[], [[ScoreElem.chordE ps o d]]⟩ = [ScoreElem.chordE ps o d] := by
    simp [flatNotes_single, ScoreElem.isNoteOrChord, ScoreElem.isChord]
  simp [make_score_monophonic, hflat, buildNoteDict, noteDictStep, h, Except.map, dictInsert,
    sortedDict, List.insertionSort, List.orderedInsert, dictEntryNote]

lemma dictInsert_mem {d : List (ℚ × MNote)} {k : ℚ} {v : MNote} {kv : ℚ × MNote}
    (h : kv ∈ dictInsert d k v) : kv ∈ d ∨ kv = (k, v) := by
  induction d with
  | nil =>
      simp only [dictInsert, List.mem_singleton] at h
      exact Or.inr h
  | cons kv0 d ih =>
      by_cases h0 : kv0.1 = k
      · simp only [dictInsert, if_pos h0, List.mem_cons] at h
        rcases h with h | h
        · exact Or.inr h
        · exact Or.inl (List.mem_cons_of_mem _ h)
      · simp only [dictInsert, if_neg h0, List.mem_cons] at h
        rcases h with h | h
        · exact Or.inl (h ▸ List.mem_cons_self _ _)
        · rcases ih h with h' | h'
          · exact Or.inl (List.mem_cons_of_mem _ h')
          · exact Or.inr h'

lemma dictLookup_dictInsert (d : List (ℚ × MNote)) (k : ℚ) (v : MNote) (k' : ℚ) :
    dictLookup (dictInsert d k v) k' = if k' = k then some v else dictLookup d k' := by
  induction d with
  | nil =>
      by_cases h : k' = k
      · simp [dictInsert, dictLookup, h]
      · have h' : ¬ k = k' := fun hh => h hh.symm
        simp [dictInsert, dictLookup, h, h']
  | cons kv0 d ih =>
      by_cases h0 : kv0.1 = k
      · by_cases h : k' = k
        · simp [dictInsert, dictLookup, h0, h]
        · have h1 : ¬ k = k' := fun hh => h hh.symm
          have h2 : ¬ kv0.1 = k' := fun hh => h ((h0 ▸ hh).symm)
          simp [dictInsert, dictLookup, h0, h, h1, h2]
      · by_cases hkv : kv0.1 = k'
        · have h : ¬ k' = k := fun hh => h0 (hh ▸ hkv)
          simp [dictInsert, dictLookup, h0, hkv, h]
        · simp [dictInsert, dictLookup, h0, hkv, ih]

lemma buildNoteDict_nil (strategy : Option String) (d : List (ℚ × MNote)) :
    buildNoteDict strategy [] d = Except.ok d := rfl

lemma buildNoteDict_cons_note (strategy : Option String) (p : Int) (o du : ℚ)
    (es : List ScoreElem) (d : List (ℚ × MNote)) :
    buildNoteDict strategy (ScoreElem.noteE p o du :: es) d =
      buildNoteDict strategy es (dictInsert d (round3 o) ⟨p, o, du⟩) := rfl

lemma buildNoteDict_cons_metronome (strategy : Option String) (bpm : Nat) (o : ℚ)
    (es : List ScoreElem) (d : List (ℚ × MNote)) :
    buildNoteDict strategy (ScoreElem.metronomeE bpm o :: es) d = buildNoteDict strategy es d := rfl

lemma buildNoteDict_cons_repeatMark (strategy : Option String) (o : ℚ)
    (es : List ScoreElem) (d : List (ℚ × MNote)) :
    buildNoteDict strategy (ScoreElem.repeatE o :: es) d = buildNoteDict strategy es d := rfl

lemma buildNoteDict_cons_chord (strategy : Option String) (ps : List Int) (o du : ℚ)
    (es : List ScoreElem) (d : List (ℚ × MNote)) :
    buildNoteDict strategy (ScoreElem.chordE ps o du :: es) d =
      match chordStrategyPitch strategy ps with
      | Except.ok p => buildNoteDict strategy es (dictInsert d (round3 o) ⟨p, o, du⟩)
      | Except.error msg => Except.error msg := by
  show (match (chordStrategyPitch strategy ps).map
      (fun p => dictInsert d (round3 o) (⟨p, o, du⟩ : MNote)) with
    | Except.ok d2 => buildNoteDict strategy es d2
    | Except.error msg => Except.error msg) = _
  cases chordStrategyPitch strategy ps <;> rfl

lemma dictInsert_keys_sub {d : List (ℚ × MNote)} {k : ℚ} {v : MNote} {k' : ℚ}
    (h : k' ∈ (dictInsert d k v).map Prod.fst) : k' ∈ d.map Prod.fst ∨ k' = k := by
  obtain ⟨kv, hkv, rfl⟩ := List.mem_map.mp h
  rcases dictInsert_mem hkv with h' | rfl
  · exact Or.inl (List.mem_map.mpr ⟨kv, h', rfl⟩)
  · exact Or.inr rfl

lemma dictInsert_keys_nodup {d : List (ℚ × MNote)} {k : ℚ} {v : MNote}
    (h : (d.map Prod.fst).Nodup) : ((dictInsert d k v).map Prod.fst).Nodup := by
  induction d with
  | nil => simp [dictInsert]
  | cons kv0 d ih =>
      rw [List.map_cons, List.nodup_cons] at h
      by_cases h0 : kv0.1 = k
      · rw [dictInsert, if_pos h0, List.map_cons, List.nodup_cons]
        exact ⟨h0 ▸ h.1, h.2⟩
      · rw [dictInsert, if_neg h0, List.map_cons, List.nodup_cons]
        refine ⟨?_, ih h.2⟩
        intro hmem
        rcases dictInsert_keys_sub hmem with h' | h'
        · exact h.1 h'
        · exact h0 h'

lemma dictInsert_inv (k : ℚ) (v : MNote) {d : List (ℚ × MNote)}
    (hk : k = round3 v.offset)
    (h1 : ∀ kv ∈ d, kv.1 = round3 kv.2.offset) :
    ∀ kv ∈ dictInsert d k v, kv.1 = round3 kv.2.offset := by
  intro kv hkv
  rcases dictInsert_mem hkv with h | rfl
  · exact h1 kv h
  · exact hk

/-- In the rounded-offset/selected-note correspondence of the loop: an event
contributes the dict key round3(its offset). -/
def eventRoundedOffset : ScoreElem → Option ℚ
  | .noteE _ o _ => some (round3 o)
  | .chordE _ o _ => some (round3 o)
  | _ => none

/-- The note the loop body selects for an event (None for elements `.notes`
would not yield, and for a chord whose strategy selection raises). -/
def eventSelection (strategy : Option String) : ScoreElem → Option MNote
  | .noteE p o d => some ⟨p, o, d⟩
  | .chordE ps o d => (chordStrategyPitch strategy ps).toOption.map fun p => MNote.mk p o d
  | _ => none

lemma noteDictStep_selection {strategy : Option String} {e : ScoreElem} {k : ℚ} {nSel : MNote}
    (hk : eventRoundedOffset e = some k) (hsel : eventSelection strategy e = some nSel)
    (d : List (ℚ × MNote)) :
    noteDictStep strategy d e = Except.ok (dictInsert d k nSel) ∧ k = round3 nSel.offset := by
  cases e with
  | noteE p o du =>
      obtain rfl : round3 o = k := Option.some.inj hk
      obtain rfl : (⟨p, o, du⟩ : MNote) = nSel := Option.some.inj hsel
      exact ⟨rfl, rfl⟩
  | chordE ps o du =>
      obtain rfl : round3 o = k := Option.some.inj hk
      cases hc : chordStrategyPitch strategy ps with
      | error msg => simp [eventSelection, hc, Except.toOption] at hsel
      | ok p =>
          have : (⟨p, o, du⟩ : MNote) = nSel := by
            simpa [eventSelection, hc, Except.toOption] using hsel
          subst this
          exact ⟨by simp [noteDictStep, hc, Except.map], rfl⟩
  | metronomeE bpm o => simp [eventRoundedOffset] at hk
  | repeatE o => simp [eventRoundedOffset] at hk

lemma buildNoteDict_append (strategy : Option String) (xs ys : List ScoreElem) :
    ∀ d, buildNoteDict strategy (xs ++ ys) d =
      match buildNoteDict strategy xs d with
      | Except.ok d2 => buildNoteDict strategy ys d2
      | Except.error msg => Except.error msg := by
  induction xs with
  | nil => intro d; rfl
  | cons e xs ih =>
      intro d
      rw [List.cons_append]
      cases e with
      | noteE p o du =>
          simp only [buildNoteDict_cons_note]
          exact ih _
      | metronomeE bpm o =>
          simp only [buildNoteDict_cons_metronome]
          exact ih _
      | repeatE o =>
          simp only [buildNoteDict_cons_repeatMark]
          exact ih _
      | chordE ps o du =>
          simp only [buildNoteDict_cons_chord]
          cases chordStrategyPitch strategy ps with
          | ok p => exact ih _
          | error msg => rfl

lemma buildNoteDict_lookup_keep (strategy : Option String) (fs : List ScoreElem) (k : ℚ) :
    ∀ d dd, (∀ f ∈ fs, eventRoundedOffset f ≠ some k) →
      buildNoteDict strategy fs d = Except.ok dd → dictLookup dd k = dictLookup d k := by
  induction fs with
  | nil =>
      intro d dd _ h
      obtain rfl : d = dd := Except.ok.inj h
      rfl
  | cons f fs ih =>
      intro d dd hfs h
      have hfs' : ∀ g ∈ fs, eventRoundedOffset g ≠ some k :=
        fun g hg => hfs g (List.mem_cons_of_mem _ hg)
      cases f with
      | noteE p o du =>
          have hne : round3 o ≠ k := by
            intro hh
            exact hfs (ScoreElem.noteE p o du) (List.mem_cons_self _ _)
              (by simp [eventRoundedOffset, hh])
          rw [buildNoteDict_cons_note] at h
          rw [ih _ _ hfs' h, dictLookup_dictInsert, if_neg (fun hh => hne hh.symm)]
      | chordE ps o du =>
          have hne : round3 o ≠ k := by
            intro hh
            exact hfs (ScoreElem.chordE ps o du) (List.mem_cons_self _ _)
              (by simp [eventRoundedOffset, hh])
          rw [buildNoteDict_cons_chord] at h
          cases hc : chordStrategyPitch strategy ps with
          | error msg =>
              rw [hc] at h
              exact Except.noConfusion h
          | ok p =>
              rw [hc] at h
              rw [ih _ _ hfs' h, dictLookup_dictInsert, if_neg (fun hh => hne hh.symm)]
      | metronomeE bpm o =>
          rw [buildNoteDict_cons_metronome] at h
          exact ih _ _ hfs' h
      | repeatE o =>
          rw [buildNoteDict_cons_repeatMark] at h
          exact ih _ _ hfs' h

lemma buildNoteDict_inv (strategy : Option String) (es : List ScoreElem) :
    ∀ d dd, buildNoteDict strategy es d = Except.ok dd →
      (∀ kv ∈ d, kv.1 = round3 kv.2.offset) → (d.map Prod.fst).Nodup →
      (∀ kv ∈ dd, kv.1 = round3 kv.2.offset) ∧ (dd.map Prod.fst).Nodup ∧
        (∀ kv ∈ dd, kv ∈ d ∨ ∃ ev ∈ es, elemOffset ev = kv.2.offset) := by
  induction es with
  | nil =>
      intro d dd h h1 h2
      obtain rfl : d = dd := Except.ok.inj h
      exact ⟨h1, h2, fun kv hkv => Or.inl hkv⟩
  | cons e es ih =>
      intro d dd h h1 h2
      cases e with
      | noteE p o du =>
          rw [buildNoteDict_cons_note] at h
          have hstep := ih (dictInsert d (round3 o) ⟨p, o, du⟩) dd h
            (dictInsert_inv (round3 o) ⟨p, o, du⟩ rfl h1) (dictInsert_keys_nodup h2)
          refine ⟨hstep.1, hstep.2.1, ?_⟩
          intro kv hkv
          rcases hstep.2.2 kv hkv with hin | ⟨ev, hev, hoff⟩
          · rcases dictInsert_mem hin with hin' | rfl
            · exact Or.inl hin'
            · exact Or.inr ⟨ScoreElem.noteE p o du, List.mem_cons_self _ _, rfl⟩
          · exact Or.inr ⟨ev, List.mem_cons_of_mem _ hev, hoff⟩
      | chordE ps o du =>
          rw [buildNoteDict_cons_chord] at h
          cases hc : chordStrategyPitch strategy ps with
          | error msg =>
              rw [hc] at h
              exact Except.noConfusion h
          | ok p =>
              rw [hc] at h
              have hstep := ih (dictInsert d (round3 o) ⟨p, o, du⟩) dd h
                (dictInsert_inv (round3 o) ⟨p, o, du⟩ rfl h1) (dictInsert_keys_nodup h2)
              refine ⟨hstep.1, hstep.2.1, ?_⟩
              intro kv hkv
              rcases hstep.2.2 kv hkv with hin | ⟨ev, hev, hoff⟩
              · rcases dictInsert_mem hin with hin' | rfl
                · exact Or.inl hin'
                · exact Or.inr ⟨ScoreElem.chordE ps o du, List.mem_cons_self _ _, rfl⟩
              · exact Or.inr ⟨ev, List.mem_cons_of_mem _ hev, hoff⟩
      | metronomeE bpm o =>
          rw [buildNoteDict_cons_metronome] at h
          have hstep := ih d dd h h1 h2
          refine ⟨hstep.1, hstep.2.1, ?_⟩
          intro kv hkv
          rcases hstep.2.2 kv hkv with hin | ⟨ev, hev, hoff⟩
          · exact Or.inl hin
          · exact Or.inr ⟨ev, List.mem_cons_of_mem _ hev, hoff⟩
      | repeatE o =>
          rw [buildNoteDict_cons_repeatMark] at h
          have hstep := ih d dd h h1 h2
          refine ⟨hstep.1, hstep.2.1, ?_⟩
          intro kv hkv
          rcases hstep.2.2 kv hkv with hin | ⟨ev, hev, hoff⟩
          · exact Or.inl hin
          · exact Or.inr ⟨ev, List.mem_cons_of_mem _ hev, hoff⟩

lemma buildNoteDict_skips_nonNotes (strategy : Option String) (l : List ScoreElem) :
    ∀ d, buildNoteDict strategy (l.filter ScoreElem.isNoteOrChord) d =
      buildNoteDict strategy l d := by
  induction l with
  | nil => intro d; rfl
  | cons e l ih =>
      intro d
      cases e with
      | noteE p o du =>
          rw [List.filter_cons_of_pos (by simp [ScoreElem.isNoteOrChord, ScoreElem.isNote])]
          rw [buildNoteDict_cons_note, buildNoteDict_cons_note]
          exact ih _
      | chordE ps o du =>
          rw [List.filter_cons_of_pos (by simp [ScoreElem.isNoteOrChord, ScoreElem.isChord])]
          rw [buildNoteDict_cons_chord, buildNoteDict_cons_chord]
          cases chordStrategyPitch strategy ps with
          | ok p => exact ih _
          | error msg => rfl
      | metronomeE bpm o =>
          rw [List.filter_cons_of_neg
            (by simp [ScoreElem.isNoteOrChord, ScoreElem.isNote, ScoreElem.isChord])]
          rw [buildNoteDict_cons_metronome]
          exact ih d
      | repeatE o =>
          rw [List.filter_cons_of_neg
            (by simp [ScoreElem.isNoteOrChord, ScoreElem.isNote, ScoreElem.isChord])]
          rw [buildNoteDict_cons_repeatMark]
          exact ih d

lemma dict_filter_key (dd : List (ℚ × MNote)) (k : ℚ) (v : MNote)
    (hnd : (dd.map Prod.fst).Nodup) (hl : dictLookup dd k = some v) :
    dd.filter (fun kv => decide (kv.1 = k)) = [(k, v)] := by
  induction dd with
  | nil => simp [dictLookup] at hl
  | cons kv0 dd ih =>
      rw [List.map_cons, List.nodup_cons] at hnd
      by_cases h0 : kv0.1 = k
      · have hv : kv0 = (k, v) := by
          have h2 : some kv0.2 = some v := by simpa [dictLookup, h0] using hl
          obtain ⟨a, b⟩ := kv0
          exact Prod.ext h0 (Option.some.inj h2)
        rw [List.filter_cons_of_pos (by simp [h0])]
        rw [hv]
        have hrest : dd.filter (fun kv => decide (kv.1 = k)) = [] := by
          refine List.filter_eq_nil_iff.mpr ?_
          intro kv hkv
          simp only [decide_eq_true_eq]
          intro hk
          exact hnd.1 (h0 ▸ hk ▸ List.mem_map.mpr ⟨kv, hkv, rfl⟩)
        rw [hrest]
      · rw [List.filter_cons_of_neg (by simp [h0])]
        have hl' : dictLookup dd k = some v := by simpa [dictLookup, h0] using hl
        exact ih hnd.2 hl'

lemma buildNoteDict_cons (strategy : Option String) (e : ScoreElem) (es : List ScoreElem)
    (d : List (ℚ × MNote)) :
    buildNoteDict strategy (e :: es) d =
      match noteDictStep strategy d e with
      | Except.ok d2 => buildNoteDict strategy es d2
      | Except.error msg => Except.error msg := rfl

lemma make_score_monophonic_ok {s : Score} {strategy : Option String} {out : Score}
    (h : make_score_monophonic s strategy = Except.ok out) :
    ∃ dd, buildNoteDict strategy s.flatNotes [] = Except.ok dd ∧
      out = ⟨[], [(sortedDict dd).map dictEntryNote]⟩ := by
  unfold make_score_monophonic at h
  cases hd : buildNoteDict strategy s.flatNotes [] with
  | error msg =>
      rw [hd] at h
      exact Except.noConfusion h
  | ok dd =>
      rw [hd] at h
      exact ⟨dd, rfl, (Except.ok.inj h).symm⟩

lemma filter_map_comm {α β : Type} (p : α → Bool) (f : β → α) (l : List β) :
    (l.map f).filter p = (l.filter fun b => p (f b)).map f := by
  rw [List.filter_map]
  rfl

lemma buildNoteDict_noChord (strategy : Option String) (es : List ScoreElem) :
    ∀ d, (∀ e ∈ es, e.isChord = false) →
      ∃ dd, buildNoteDict strategy es d = Except.ok dd ∧
        ∀ kv ∈ dd, kv ∈ d ∨ ∃ p o du, ScoreElem.noteE p o du ∈ es ∧ kv.2 = ⟨p, o, du⟩ := by
  induction es with
  | nil => intro d _; exact ⟨d, rfl, fun kv hkv => Or.inl hkv⟩
  | cons e es ih =>
      intro d h
      have h' : ∀ x ∈ es, x.isChord = false := fun x hx => h x (List.mem_cons_of_mem _ hx)
      cases e with
      | noteE p o du =>
          obtain ⟨dd, hdd, hmem⟩ := ih (dictInsert d (round3 o) ⟨p, o, du⟩) h'
          refine ⟨dd, by rw [buildNoteDict_cons_note]; exact hdd, ?_⟩
          intro kv hkv
          rcases hmem kv hkv with hin | ⟨p', o', du', hm, hv⟩
          · rcases dictInsert_mem hin with hin' | rfl
            · exact Or.inl hin'
            · exact Or.inr ⟨p, o, du, List.mem_cons_self _ _, rfl⟩
          · exact Or.inr ⟨p', o', du', List.mem_cons_of_mem _ hm, hv⟩
      | chordE ps o du =>
          exact absurd (h _ (List.mem_cons_self _ _)) (by simp [ScoreElem.isChord])
      | metronomeE bpm o =>
          obtain ⟨dd, hdd, hmem⟩ := ih d h'
          refine ⟨dd, by rw [buildNoteDict_cons_metronome]; exact hdd, ?_⟩
          intro kv hkv
          rcases hmem kv hkv with hin | ⟨p', o', du', hm, hv⟩
          · exact Or.inl hin
          · exact Or.inr ⟨p', o', du', List.mem_cons_of_mem _ hm, hv⟩
      | repeatE o =>
          obtain ⟨dd, hdd, hmem⟩ := ih d h'
          refine ⟨dd, by rw [buildNoteDict_cons_repeatMark]; exact hdd, ?_⟩
          intro kv hkv
          rcases hmem kv hkv with hin | ⟨p', o', du', hm, hv⟩
          · exact Or.inl hin
          · exact Or.inr ⟨p', o', du', List.mem_cons_of_mem _ hm, hv⟩

lemma chordStrategyPitch_top {ps : List Int} {p : Int} (hp : ps.max? = some p) :
    chordStrategyPitch (some ("top")) ps = Except.ok p := by
  unfold chordStrategyPitch
  rw [if_pos rfl, hp]

lemma chordStrategyPitch_bottom {ps : List Int} {p : Int} (hp : ps.min? = some p) :
    chordStrategyPitch (some ("bottom")) ps = Except.ok p := by
  unfold chordStrategyPitch
  rw [if_neg (by decide), if_pos rfl, hp]

lemma chordStrategyPitch_first {ps : List Int} {p : Int} (hp : ps.head? = some p) :
    chordStrategyPitch (some ("first")) ps = Except.ok p := by
  unfold chordStrategyPitch
  rw [if_neg (by decide), if_neg (by decide), if_pos rfl, hp]

lemma chordStrategyPitch_last {ps : List Int} {p : Int} (hp : ps.getLast? = some p) :
    chordStrategyPitch (some ("last")) ps = Except.ok p := by
  unfold chordStrategyPitch
  rw [if_neg (by decide), if_neg (by decide), if_neg (by decide), if_pos rfl, hp]

/-! ## Claim theorems about make_score_monophonic -/

/-- Claim C4: monophonic reduction of a chord selects the highest pitch
under strategy top, the lowest under bottom, the first-listed under first
and the last-listed under last, emitting that single pitch at the chord's
offset and with its duration. -/
theorem c4_chord_strategy_selection (ps : List Int) (o d : ℚ) :
    (∀ p, ps.max? = some p →
      make_score_monophonic ⟨[], [[ScoreElem.chordE ps o d]]⟩ (some ("top")) =
        Except.ok ⟨[], [[ScoreElem.noteE p o d]]⟩) ∧
    (∀ p, ps.min? = some p →
      make_score_monophonic ⟨[], [[ScoreElem.chordE ps o d]]⟩ (some ("bottom")) =
        Except.ok ⟨[], [[ScoreElem.noteE p o d]]⟩) ∧
    (∀ p, ps.head? = some p →
      make_score_monophonic ⟨[], [[ScoreElem.chordE ps o d]]⟩ (some ("first")) =
        Except.ok ⟨[], [[ScoreElem.noteE p o d]]⟩) ∧
    (∀ p, ps.getLast? = some p →
      make_score_monophonic ⟨[], [[ScoreElem.chordE ps o d]]⟩ (some ("last")) =
        Except.ok ⟨[], [[ScoreElem.noteE p o d]]⟩) :=
  ⟨fun p hp => mono_single_chord _ ps o d p (chordStrategyPitch_top hp),
   fun p hp => mono_single_chord _ ps o d p (chordStrategyPitch_bottom hp),
   fun p hp => mono_single_chord _ ps o d p (chordStrategyPitch_first hp),
   fun p hp => mono_single_chord _ ps o d p (chordStrategyPitch_last hp)⟩

/-- Witness for C4 at the chord {C4, E4, G4} = MIDI {60, 64, 67}: top keeps
G4 = 67 and bottom keeps C4 = 60, at the chord's offset and duration. -/
theorem c4_chord_strategy_witness :
    make_score_monophonic ⟨[], [[ScoreElem.chordE [60, 64, 67] 0 1]]⟩ (some ("top")) =
      Except.ok ⟨[], [[ScoreElem.noteE 67 0 1]]⟩ ∧
    make_score_monophonic ⟨[], [[ScoreElem.chordE [60, 64, 67] 0 1]]⟩ (some ("bottom")) =
      Except.ok ⟨[], [[ScoreElem.noteE 60 0 1]]⟩ ∧
    make_score_monophonic ⟨[], [[ScoreElem.chordE [60, 64, 67] 0 1]]⟩ (some ("first")) =
      Except.ok ⟨[], [[ScoreElem.noteE 60 0 1]]⟩ ∧
    make_score_monophonic ⟨[], [[ScoreElem.chordE [60, 64, 67] 0 1]]⟩ (some ("last")) =
      Except.ok ⟨[], [[ScoreElem.noteE 67 0 1]]⟩ :=
  ⟨(c4_chord_strategy_selection [60, 64, 67] 0 1).1 67 (by decide),
   (c4_chord_strategy_selection [60, 64, 67] 0 1).2.1 60 (by decide),
   (c4_chord_strategy_selection [60, 64, 67] 0 1).2.2.1 60 (by decide),
   (c4_chord_strategy_selection [60, 64, 67] 0 1).2.2.2 67 (by decide)⟩

/-- Claim C5: among the processed events, the last one whose offset rounds
(to 3 decimal places) to a given key determines the single note the output
holds at that rounded offset: its selection overwrites every earlier one. -/
theorem c5_last_writer_wins (strategy : Option String) (es fs : List ScoreElem)
    (e : ScoreElem) (k : ℚ) (nSel : MNote) (out : Score)
    (hk : eventRoundedOffset e = some k)
    (hsel : eventSelection strategy e = some nSel)
    (hfs : ∀ f ∈ fs, eventRoundedOffset f ≠ some k)
    (hout : make_score_monophonic ⟨[], [es ++ e :: fs]⟩ strategy = Except.ok out) :
    out.parts.flatten.filter (fun el => decide (round3 (elemOffset el) = k)) =
      [ScoreElem.noteE nSel.pitch nSel.offset nSel.dur] := by
  obtain ⟨dd, hdd, rfl⟩ := make_score_monophonic_ok hout
  rw [flatNotes_single, buildNoteDict_skips_nonNotes] at hdd
  obtain ⟨hinv, hnd, -⟩ := buildNoteDict_inv strategy (es ++ e :: fs) [] dd hdd
    (by simp) (by simp)
  rw [buildNoteDict_append] at hdd
  cases h1 : buildNoteDict strategy es [] with
  | error msg =>
      rw [h1] at hdd
      exact Except.noConfusion hdd
  | ok d1 =>
      rw [h1] at hdd
      obtain ⟨hstep, hkey⟩ := noteDictStep_selection hk hsel d1
      have hdd2 : buildNoteDict strategy (e :: fs) d1 = Except.ok dd := hdd
      rw [buildNoteDict_cons, hstep] at hdd2
      have hdd' : buildNoteDict strategy fs (dictInsert d1 k nSel) = Except.ok dd := hdd2
      have hlook : dictLookup dd k = some nSel := by
        rw [buildNoteDict_lookup_keep strategy fs k _ _ hfs hdd',
          dictLookup_dictInsert, if_pos rfl]
      have hfilter : dd.filter (fun kv => decide (kv.1 = k)) = [(k, nSel)] :=
        dict_filter_key dd k nSel hnd hlook
      have hperm : List.Perm (sortedDict dd) dd := List.perm_insertionSort _ _
      have hflat : (Score.mk [] [(sortedDict dd).map dictEntryNote]).parts.flatten
          = (sortedDict dd).map dictEntryNote := by simp
      rw [hflat, filter_map_comm]
      have hcongr : ((sortedDict dd).filter
            fun kv => decide (round3 (elemOffset (dictEntryNote kv)) = k))
          = (sortedDict dd).filter (fun kv => decide (kv.1 = k)) := by
        refine List.filter_congr ?_
        intro kv hkv
        have hmem : kv ∈ dd := hperm.subset hkv
        simp only [dictEntryNote, elemOffset]
        rw [hinv kv hmem]
      rw [hcongr]
      have hsor : (sortedDict dd).filter (fun kv => decide (kv.1 = k)) = [(k, nSel)] :=
        List.perm_singleton.mp (hfilter ▸ hperm.filter (fun kv => decide (kv.1 = k)))
      rw [hsor]
      rfl

/-- Witness for C5: the notes at offsets 0 and 1/10000 share the rounded
offset 0; the later-processed one (pitch 62) is the one retained. -/
theorem c5_last_writer_witness :
    (Score.mk [] [[ScoreElem.noteE 62 (mkRat 1 10000) 1,
        ScoreElem.noteE 70 2 1]]).parts.flatten.filter
        (fun el => decide (round3 (elemOffset el) = 0)) =
      [ScoreElem.noteE 62 (mkRat 1 10000) 1] :=
  c5_last_writer_wins none [ScoreElem.noteE 60 0 1] [ScoreElem.noteE 70 2 1]
    (ScoreElem.noteE 62 (mkRat 1 10000) 1) 0 ⟨62, mkRat 1 10000, 1⟩
    ⟨[], [[ScoreElem.noteE 62 (mkRat 1 10000) 1, ScoreElem.noteE 70 2 1]]⟩
    (by decide) rfl (by decide) rfl

/-- Claim C9: a successful make_score_monophonic yields a Score with no
score-level extras, exactly one part, only note events (no chords, no tempo
or repeat markings), pairwise-distinct rounded offsets, and every output
note placed at the (unrounded) offset of some input note/chord. -/
theorem c9_mono_invariants (s : Score) (strategy : Option String) (out : Score)
    (h : make_score_monophonic s strategy = Except.ok out) :
    out.topElems = [] ∧ out.parts.length = 1 ∧
    (∀ e ∈ out.parts.flatten, ∃ p o d, e = ScoreElem.noteE p o d) ∧
    (out.parts.flatten.map fun e => round3 (elemOffset e)).Nodup ∧
    (∀ e ∈ out.parts.flatten, ∃ ev ∈ s.flatNotes, elemOffset ev = elemOffset e) := by
  obtain ⟨dd, hdd, rfl⟩ := make_score_monophonic_ok h
  obtain ⟨hinv, hnd, horig⟩ := buildNoteDict_inv strategy s.flatNotes [] dd hdd
    (by simp) (by simp)
  have hperm : List.Perm (sortedDict dd) dd := List.perm_insertionSort _ _
  have hflat : (Score.mk [] [(sortedDict dd).map dictEntryNote]).parts.flatten
      = (sortedDict dd).map dictEntryNote := by simp
  refine ⟨rfl, rfl, ?_, ?_, ?_⟩
  · intro e he
    rw [hflat] at he
    obtain ⟨kv, -, rfl⟩ := List.mem_map.mp he
    exact ⟨kv.2.pitch, kv.2.offset, kv.2.dur, rfl⟩
  · rw [hflat, List.map_map]
    have hmapeq : ((sortedDict dd).map ((fun e => round3 (elemOffset e)) ∘ dictEntryNote))
        = (sortedDict dd).map Prod.fst := by
      refine List.map_congr_left ?_
      intro kv hkv
      have hmem : kv ∈ dd := hperm.subset hkv
      simp only [Function.comp, dictEntryNote, elemOffset]
      exact (hinv kv hmem).symm
    rw [hmapeq]
    exact ((hperm.map Prod.fst).nodup_iff).mpr hnd
  · intro e he
    rw [hflat] at he
    obtain ⟨kv, hkv, rfl⟩ := List.mem_map.mp he
    have hmem : kv ∈ dd := hperm.subset hkv
    rcases horig kv hmem with h0 | ⟨ev, hev, hoff⟩
    · exact absurd h0 (List.not_mem_nil kv)
    · exact ⟨ev, hev, by simpa [dictEntryNote, elemOffset] using hoff⟩

/-- Witness for C9 on a score holding one note and one tempo marking. -/
theorem c9_mono_invariants_witness :
    (Score.mk [] [[ScoreElem.noteE 60 0 1]]).topElems = [] ∧
    (Score.mk [] [[ScoreElem.noteE 60 0 1]]).parts.length = 1 ∧
    (∀ e ∈ (Score.mk [] [[ScoreElem.noteE 60 0 1]]).parts.flatten,
      ∃ p o d, e = ScoreElem.noteE p o d) ∧
    ((Score.mk [] [[ScoreElem.noteE 60 0 1]]).parts.flatten.map
      fun e => round3 (elemOffset e)).Nodup ∧
    (∀ e ∈ (Score.mk [] [[ScoreElem.noteE 60 0 1]]).parts.flatten,
      ∃ ev ∈ (Score.mk [] [[ScoreElem.noteE 60 0 1,
        ScoreElem.metronomeE 120 0]]).flatNotes, elemOffset ev = elemOffset e) :=
  c9_mono_invariants ⟨[], [[ScoreElem.noteE 60 0 1, ScoreElem.metronomeE 120 0]]⟩ none
    ⟨[], [[ScoreElem.noteE 60 0 1]]⟩ rfl

/-- Claim C10: the strategy is only consulted on chord events, so on a
chord-free score make_score_monophonic succeeds for every strategy value
(None or arbitrary strings) and passes the notes through unchanged. -/
theorem c10_no_chord_no_error (s : Score) (strategy : Option String)
    (h : ∀ e ∈ s.flatNotes, e.isChord = false) :
    ∃ out, make_score_monophonic s strategy = Except.ok out ∧
      ∀ p o d, ScoreElem.noteE p o d ∈ out.parts.flatten →
        ScoreElem.noteE p o d ∈ s.flatNotes := by
  obtain ⟨dd, hdd, hmem⟩ := buildNoteDict_noChord strategy s.flatNotes [] h
  refine ⟨⟨[], [(sortedDict dd).map dictEntryNote]⟩, ?_, ?_⟩
  · unfold make_score_monophonic
    rw [hdd]
  · intro p o d hpo
    have hflat : (Score.mk [] [(sortedDict dd).map dictEntryNote]).parts.flatten
        = (sortedDict dd).map dictEntryNote := by simp
    rw [hflat] at hpo
    obtain ⟨kv, hkv, hEq⟩ := List.mem_map.mp hpo
    have hkv' : kv ∈ dd := (List.perm_insertionSort
      (fun a b : ℚ × MNote => a.1 ≤ b.1) dd).subset hkv
    rcases hmem kv hkv' with h0 | ⟨p', o', du', hm, hv⟩
    · exact absurd h0 (List.not_mem_nil kv)
    · simp only [dictEntryNote, hv] at hEq
      obtain ⟨rfl, rfl, rfl⟩ := ScoreElem.noteE.inj hEq
      exact hm

/-- Witness for C10: a two-note score is reduced without error under the
unrecognized strategy string zz. -/
theorem c10_no_chord_no_error_witness :
    ∃ out, make_score_monophonic ⟨[], [[ScoreElem.noteE 60 0 1, ScoreElem.noteE 62 1 1]]⟩
        (some ("zz")) = Except.ok out ∧
      ∀ p o d, ScoreElem.noteE p o d ∈ out.parts.flatten →
        ScoreElem.noteE p o d ∈
          (Score.mk [] [[ScoreElem.noteE 60 0 1, ScoreElem.noteE 62 1 1]]).flatNotes :=
  c10_no_chord_no_error ⟨[], [[ScoreElem.noteE 60 0 1, ScoreElem.noteE 62 1 1]]⟩
    (some ("zz")) (by decide)

/-- Claim C3: with the left-hand filter (max_pitch=60) exactly the note
events with MIDI pitch ≤ 60 are retained; with the right-hand filter
(min_pitch=61) exactly those with pitch ≥ 61; a chord keeps exactly its
in-range pitches, is dropped when none survive, and is otherwise rebuilt at
the original offset with the original duration. -/
theorem c3_pitch_filter_retention (s : Score) (p : Int) (o d : ℚ) (qs : List Int) :
    (ScoreElem.noteE p o d ∈ (filter_score_by_pitch s none (some 60)).flatNotes ↔
      ScoreElem.noteE p o d ∈ s.flatNotes ∧ p ≤ 60) ∧
    (ScoreElem.noteE p o d ∈ (filter_score_by_pitch s (some 61) none).flatNotes ↔
      ScoreElem.noteE p o d ∈ s.flatNotes ∧ 61 ≤ p) ∧
    (ScoreElem.chordE qs o d ∈ (filter_score_by_pitch s none (some 60)).flatNotes ↔
      ∃ ps, ScoreElem.chordE ps o d ∈ s.flatNotes ∧
        qs = ps.filter (fun x => decide (x ≤ 60)) ∧ qs ≠ []) ∧
    (ScoreElem.chordE qs o d ∈ (filter_score_by_pitch s (some 61) none).flatNotes ↔
      ∃ ps, ScoreElem.chordE ps o d ∈ s.flatNotes ∧
        qs = ps.filter (fun x => decide (61 ≤ x)) ∧ qs ≠ []) := by
  have hL : (fun x => pitchInRange none (some 60) x) = fun x : Int => decide (x ≤ 60) := by
    funext x
    simp [pitchInRange]
  have hR : (fun x => pitchInRange (some 61) none x) = fun x : Int => decide (61 ≤ x) := by
    funext x
    simp [pitchInRange]
  refine ⟨?_, ?_, ?_, ?_⟩
  · rw [mem_filter_note]
    simp [pitchInRange]
  · rw [mem_filter_note]
    simp [pitchInRange]
  · rw [mem_filter_chord]
    simp only [hL]
  · rw [mem_filter_chord]
    simp only [hR]

/-- Witness for C3: pitch 60 is kept by the left hand, pitch 61 by the
right hand, and a chord {60, 61} keeps exactly pitch 60 under the left
hand. -/
theorem c3_pitch_filter_witness :
    ScoreElem.noteE 60 0 1 ∈
      (filter_score_by_pitch ⟨[], [[ScoreElem.noteE 60 0 1, ScoreElem.noteE 61 0 1]]⟩
        none (some 60)).flatNotes ∧
    ScoreElem.noteE 61 0 1 ∈
      (filter_score_by_pitch ⟨[], [[ScoreElem.noteE 60 0 1, ScoreElem.noteE 61 0 1]]⟩
        (some 61) none).flatNotes ∧
    ScoreElem.chordE [60] 0 1 ∈
      (filter_score_by_pitch ⟨[], [[ScoreElem.chordE [60, 61] 0 1]]⟩
        none (some 60)).flatNotes :=
  ⟨(c3_pitch_filter_retention _ 60 0 1 []).1.mpr ⟨by decide, by decide⟩,
   (c3_pitch_filter_retention _ 61 0 1 []).2.1.mpr ⟨by decide, by decide⟩,
   (c3_pitch_filter_retention _ 60 0 1 [60]).2.2.1.mpr
     ⟨[60, 61], by decide, by decide, by decide⟩⟩

/-! ## Claim theorems about convert_to_midi -/

/-- Claim C1 (code-bug evidence): with the left-hand filter enabled,
convert_to_midi does insert the single 160 BPM marking during tempo
normalization (third conjunct), but filter_score_by_pitch then rebuilds a
notes-only Score, so the cleaned Score that is written out carries zero
tempo markings (first and second conjuncts) instead of exactly one at
160 BPM. -/
theorem c1_hand_filter_drops_inserted_tempo :
    (convert_to_midi ⟨0, true, false, none⟩
        ⟨[], [[ScoreElem.metronomeE 120 0, ScoreElem.noteE 50 0 1]]⟩ id id).1 =
      Except.ok ⟨[], [[ScoreElem.noteE 50 0 1]]⟩ ∧
    Score.tempoMarks ⟨[], [[ScoreElem.noteE 50 0 1]]⟩ = [] ∧
    Score.tempoMarks
        ((Score.removeTempoMarks (Score.removeRepeats
          ⟨[], [[ScoreElem.metronomeE 120 0, ScoreElem.noteE 50 0 1]]⟩)).insertTempo160) =
      [160] :=
  ⟨rfl, rfl, rfl⟩

/-- Counterexample to C2 as stated: with both hand flags set the stage does
fail with the configuration error, but only after repeat removal and tempo
normalization have already been applied (the tempo-normalization step is in
the performed trace, and the 160 BPM mark was in fact inserted). -/
theorem c2_both_hands_counterexample :
    (convert_to_midi ⟨0, true, true, none⟩ ⟨[], [[ScoreElem.noteE 50 0 1]]⟩ id id).1 =
      Except.error ("Cannot enable both left_hand and right_hand simultaneously.") ∧
    CleanStep.tempoNormStep ∈
      (convert_to_midi ⟨0, true, true, none⟩ ⟨[], [[ScoreElem.noteE 50 0 1]]⟩ id id).2 ∧
    Score.tempoMarks ((Score.removeTempoMarks (Score.removeRepeats
        (⟨[], [[ScoreElem.noteE 50 0 1]]⟩ : Score))).insertTempo160) = [160] := by
  refine ⟨rfl, ?_, rfl⟩
  show CleanStep.tempoNormStep ∈ [CleanStep.removeRepeatsStep, CleanStep.tempoNormStep]
  simp

/-- Claim C2 as amended: with both hand flags set, convert_to_midi returns
the configuration error (no MIDI path) before pitch filtering, monophonic
reduction and quantization, but after transpose (when configured), repeat
removal and tempo normalization have been applied. -/
theorem c2_both_hands_amended (cfg : Config) (s : Score) (qo qd : ℚ → ℚ)
    (hL : cfg.leftHand = true) (hR : cfg.rightHand = true) :
    (convert_to_midi cfg s qo qd).1 =
      Except.error ("Cannot enable both left_hand and right_hand simultaneously.") ∧
    (convert_to_midi cfg s qo qd).2 =
      (if cfg.transposeInterval ≠ 0 then [CleanStep.transposeStep] else []) ++
        [CleanStep.removeRepeatsStep, CleanStep.tempoNormStep] ∧
    CleanStep.filterLeftStep ∉ (convert_to_midi cfg s qo qd).2 ∧
    CleanStep.filterRightStep ∉ (convert_to_midi cfg s qo qd).2 ∧
    CleanStep.monoStep ∉ (convert_to_midi cfg s qo qd).2 ∧
    CleanStep.quantizeStep ∉ (convert_to_midi cfg s qo qd).2 := by
  by_cases ht : cfg.transposeInterval ≠ 0 <;>
    simp [convert_to_midi, transposeStage, hL, hR, ht]

/-- Witness for C2 (amended): a concrete run with both flags set. -/
theorem c2_both_hands_witness :
    (convert_to_midi ⟨0, true, true, none⟩ ⟨[], [[ScoreElem.noteE 50 0 1]]⟩ id id).1 =
      Except.error ("Cannot enable both left_hand and right_hand simultaneously.") ∧
    CleanStep.quantizeStep ∉
      (convert_to_midi ⟨0, true, true, none⟩ ⟨[], [[ScoreElem.noteE 50 0 1]]⟩ id id).2 :=
  ⟨(c2_both_hands_amended ⟨0, true, true, none⟩ ⟨[], [[ScoreElem.noteE 50 0 1]]⟩
      id id rfl rfl).1,
   (c2_both_hands_amended ⟨0, true, true, none⟩ ⟨[], [[ScoreElem.noteE 50 0 1]]⟩
      id id rfl rfl).2.2.2.2.2⟩

/-! ## Lemmas about page image naming -/

set_option maxRecDepth 4000 in
lemma padLeft3_decDigits : ∀ m, m < 1000 → padLeft3 (decDigits m) =
    [digitChar (m / 100), digitChar (m / 10 % 10), digitChar (m % 10)] := by
  decide

lemma digitChar_lt_digitChar : ∀ a, a < 10 → ∀ b, b < 10 → a < b →
    digitChar a < digitChar b := by
  decide

lemma charList_lex_append (p : List Char) {xs ys : List Char}
    (h : List.Lex (fun c1 c2 : Char => c1 < c2) xs ys) :
    List.Lex (fun c1 c2 : Char => c1 < c2) (p ++ xs) (p ++ ys) := by
  induction p with
  | nil => exact h
  | cons c p ih => exact List.Lex.cons ih

lemma pageName_data (a : Nat) :
    (pageName a).data = "page_".data ++ (padLeft3 (decDigits a) ++ (".png").data) := by
  simp [pageName, String.data_append, List.append_assoc]

lemma pageName_lt_pageName (a b : Nat) (hab : a < b) (hb : b < 1000) :
    (pageName a).data < (pageName b).data := by
  have ha : a < 1000 := lt_trans hab hb
  rw [pageName_data, pageName_data, padLeft3_decDigits a ha, padLeft3_decDigits b hb]
  show List.Lex (fun c1 c2 : Char => c1 < c2) _ _
  apply charList_lex_append
  simp only [List.cons_append, List.nil_append]
  have h2a : a / 100 < 10 := by omega
  have h2b : b / 100 < 10 := by omega
  have h1a : a / 10 % 10 < 10 := by omega
  have h1b : b / 10 % 10 < 10 := by omega
  have h0a : a % 10 < 10 := by omega
  have h0b : b % 10 < 10 := by omega
  have tri : a / 100 < b / 100 ∨ (a / 100 = b / 100 ∧ (a / 10 % 10 < b / 10 % 10 ∨
      (a / 10 % 10 = b / 10 % 10 ∧ a % 10 < b % 10))) := by omega
  rcases tri with h | ⟨hEq2, h | ⟨hEq1, h0⟩⟩
  · exact List.Lex.rel (digitChar_lt_digitChar _ h2a _ h2b h)
  · rw [hEq2]
    exact List.Lex.cons (List.Lex.rel (digitChar_lt_digitChar _ h1a _ h1b h))
  · rw [hEq2, hEq1]
    exact List.Lex.cons (List.Lex.cons
      (List.Lex.rel (digitChar_lt_digitChar _ h0a _ h0b h0)))

set_option maxRecDepth 10000 in
/-- Counterexample to C6 as stated: a 1000-page document.  Page 1000 is
formatted with four digits, so its name is shorter-prefixed than page 999's
and sorts lexically before it: lexical order no longer equals page order,
and the name is not a 3-digit-padded index (its length differs). -/
theorem c6_page_naming_counterexample :
    (convert_to_images (InputDoc.pdfDoc 1000))[998]? = some (pageName 999) ∧
    (convert_to_images (InputDoc.pdfDoc 1000))[999]? = some (pageName 1000) ∧
    (pageName 1000).data < (pageName 999).data ∧
    (pageName 1000).data.length ≠ ("page_001.png").data.length := by
  refine ⟨?_, ?_, by decide, by decide⟩
  · rfl
  · rfl

/-- Claim C6 as amended (restricted to N ≤ 999, the range the 3-digit
zero-padding supports): a PDF with N pages yields exactly N page image
names, the i-th (0-based) being page_{i+1} zero-padded to 3 digits, in
strictly increasing lexical order, and any single image is copied to
page_001.png regardless of its original name. -/
theorem c6_page_naming_amended (n : Nat) (h1 : 1 ≤ n) (h2 : n ≤ 999) :
    (convert_to_images (InputDoc.pdfDoc n)).length = n ∧
    (∀ i, i < n → (convert_to_images (InputDoc.pdfDoc n))[i]? = some (pageName (i + 1)) ∧
      padLeft3 (decDigits (i + 1)) =
        [digitChar ((i + 1) / 100), digitChar ((i + 1) / 10 % 10), digitChar ((i + 1) % 10)]) ∧
    List.Pairwise (fun a b : String => a.data < b.data) (convert_to_images (InputDoc.pdfDoc n)) ∧
    (∀ nm, convert_to_images (InputDoc.imageDoc nm) = [("page_001.png")]) := by
  refine ⟨by simp [convert_to_images], ?_, ?_, fun nm => rfl⟩
  · intro i hi
    refine ⟨?_, padLeft3_decDigits (i + 1) (by omega)⟩
    simp [convert_to_images, List.getElem?_map, List.getElem?_range, hi]
  · show List.Pairwise _ ((List.range n).map fun i => pageName (i + 1))
    rw [List.pairwise_map]
    refine List.Pairwise.imp_of_mem ?_ (List.pairwise_lt_range n)
    intro x y hx hy hxy
    have hyn : y < n := List.mem_range.mp hy
    exact pageName_lt_pageName (x + 1) (y + 1) (by omega) (by omega)

/-- Witness for C6 (amended) at a 3-page document. -/
theorem c6_page_naming_witness :
    (convert_to_images (InputDoc.pdfDoc 3)).length = 3 ∧
    (convert_to_images (InputDoc.pdfDoc 3))[0]? = some (pageName 1) ∧
    List.Pairwise (fun a b : String => a.data < b.data) (convert_to_images (InputDoc.pdfDoc 3)) ∧
    convert_to_images (InputDoc.imageDoc ("shape_of_you.jpg")) = [("page_001.png")] :=
  ⟨(c6_page_naming_amended 3 (by decide) (by decide)).1,
   ((c6_page_naming_amended 3 (by decide) (by decide)).2.1 0 (by decide)).1,
   (c6_page_naming_amended 3 (by decide) (by decide)).2.2.1,
   (c6_page_naming_amended 3 (by decide) (by decide)).2.2.2 ("shape_of_you.jpg")⟩

/-! ## Claim theorems about run_audiveris and convert_midi_to_mp3 -/

/-- Claim C7: when the batch invocation exits non-zero, run_audiveris
performs the batch attempt followed by exactly one per-image attempt per
input image, in order, each logging to {stem}_audiveris.log; the attempted
invocations (log file and arguments) do not depend on the per-image exit
statuses, so one image's failure never prevents the attempts on the others,
and the function returns normally (every raised CalledProcessError is
caught where the source catches it). -/
theorem c7_per_image_fallback (stems : List String) (exitOk exitOk2 : List String → Bool)
    (hbatch : exitOk stems = false) (hbatch2 : exitOk2 stems = false) :
    (run_audiveris stems exitOk).map (fun a0 => (a0.logFile, a0.imagesArg)) =
      ("audiveris_batch.log", stems) ::
        stems.map (fun st => (st ++ ("_audiveris.log"), [st])) ∧
    (run_audiveris stems exitOk).map (fun a0 => (a0.logFile, a0.imagesArg)) =
      (run_audiveris stems exitOk2).map (fun a0 => (a0.logFile, a0.imagesArg)) := by
  constructor <;> simp [run_audiveris, hbatch, hbatch2]

/-- Witness for C7: two pages, one oracle failing everything and one
failing only the batch; the attempted invocations coincide. -/
theorem c7_per_image_fallback_witness :
    (run_audiveris [("page_001"), ("page_002")] (fun _ => false)).map
        (fun a0 => (a0.logFile, a0.imagesArg)) =
      ("audiveris_batch.log", [("page_001"), ("page_002")]) ::
        [("page_001"), ("page_002")].map (fun st => (st ++ ("_audiveris.log"), [st])) ∧
    (run_audiveris [("page_001"), ("page_002")] (fun _ => false)).map
        (fun a0 => (a0.logFile, a0.imagesArg)) =
      (run_audiveris [("page_001"), ("page_002")] (fun l => decide (l.length = 1))).map
        (fun a0 => (a0.logFile, a0.imagesArg)) :=
  c7_per_image_fallback [("page_001"), ("page_002")] (fun _ => false)
    (fun l => decide (l.length = 1)) rfl rfl

/-- Counterexample to C8 as stated: a run that reaches encoding (ffmpeg is
invoked) but in which ffmpeg exits non-zero does not delete the WAV — the
deletion is not performed after every run that reaches encoding. -/
theorem c8_wav_cleanup_counterexample :
    RenderAction.runFfmpeg ∈ convert_midi_to_mp3 ⟨true, 0, 1⟩ ∧
    RenderAction.deleteWav ∉ convert_midi_to_mp3 ⟨true, 0, 1⟩ := by
  decide

/-- Claim C8 as amended: the WAV is deleted exactly in the runs where
synthesis and encoding both succeed (absence of the file is not an error,
unlink uses missing_ok); when the MIDI file is missing the stage only logs
an error — no synthesis, no encoding, no deletion, no playback. -/
theorem c8_wav_cleanup_amended (env : RenderEnv) :
    (env.midiExists = false → convert_midi_to_mp3 env = [RenderAction.logNoMidi]) ∧
    (env.midiExists = true → env.fluidsynthExit = 0 → env.ffmpegExit = 0 →
      convert_midi_to_mp3 env = [RenderAction.runFluidsynth, RenderAction.runFfmpeg,
        RenderAction.deleteWav, RenderAction.playMp3]) ∧
    (RenderAction.deleteWav ∈ convert_midi_to_mp3 env ↔
      env.midiExists = true ∧ env.fluidsynthExit = 0 ∧ env.ffmpegExit = 0) ∧
    (RenderAction.playMp3 ∈ convert_midi_to_mp3 env ↔
      env.midiExists = true ∧ env.fluidsynthExit = 0 ∧ env.ffmpegExit = 0) := by
  obtain ⟨me, fe, ge⟩ := env
  cases me <;> by_cases hf : fe = 0 <;> by_cases hg : ge = 0 <;>
    simp [convert_midi_to_mp3, hf, hg]

/-- Witness for C8 (amended): a missing MIDI only logs; a fully successful
run synthesizes, encodes, deletes the WAV and plays. -/
theorem c8_wav_cleanup_witness :
    convert_midi_to_mp3 ⟨false, 0, 0⟩ = [RenderAction.logNoMidi] ∧
    convert_midi_to_mp3 ⟨true, 0, 0⟩ = [RenderAction.runFluidsynth, RenderAction.runFfmpeg,
      RenderAction.deleteWav, RenderAction.playMp3] :=
  ⟨(c8_wav_cleanup_amended ⟨false, 0, 0⟩).1 rfl,
   (c8_wav_cleanup_amended ⟨true, 0, 0⟩).2.1 rfl rfl rfl⟩

end TuneReader
